import Mathlib

/-!
Verification of the model module of the `clews` repository
(`src/models/dvinetp.py`).

Tensors are embedded as functions from natural-number indices to real
numbers, with shapes carried as explicit parameters.  Floating-point
arithmetic is idealised over `ℝ`; duration parameters (seconds) are
rationals and `int(...)` truncation is modelled by `natFloor`.  The
`einops.rearrange` flatten/unflatten pairs of the source are embedded as
explicit index arithmetic (`b * S + s`, `n / S`, `n % S`).

The helper module `lib.tensor_ops` and the external libraries
(`torch`, `nnAudio`) are not part of the given sources; the
`tensor_ops` functions the model calls are modelled from the spec
(marked below), while the external CQT and the convolutional blocks
are abstract fields of the `Model` structure.
-/

noncomputable section
namespace Clews

open Finset

/-- `torch.nn.ReLU`: pointwise positive part. -/
def relu (x : ℝ) : ℝ := max x 0

/-- Euclidean norm of the first `C` entries of a vector. -/
def vecNorm (C : ℕ) (v : ℕ → ℝ) : ℝ := Real.sqrt (∑ c ∈ Finset.range C, v c ^ 2)

/-- `int(q)` for a nonnegative rational duration. -/
def natFloor (q : ℚ) : ℕ := (⌊q⌋).toNat

/-- Modelled from the spec: the distance/similarity modes of
`lib.tensor_ops.pairwise_distance_matrix` ("Euclidean, cosine, dot-product"). -/
inductive PDMode
  | euc
  | cos
  | dotsim

/-- Modelled from the spec: per-pair value of
`lib.tensor_ops.pairwise_distance_matrix` on `C`-dimensional vectors. -/
def pdist (m : PDMode) (C : ℕ) (u v : ℕ → ℝ) : ℝ :=
  match m with
  | .euc => Real.sqrt (∑ c ∈ Finset.range C, (u c - v c) ^ 2)
  | .cos => 1 - (∑ c ∈ Finset.range C, u c * v c) / (vecNorm C u * vecNorm C v)
  | .dotsim => ∑ c ∈ Finset.range C, u c * v c

/-- Modelled from the spec: `lib.tensor_ops.pairwise_distance_matrix`
on two stacks of vectors. -/
def pairwiseDistanceMatrix (m : PDMode) (C : ℕ) (x y : ℕ → ℕ → ℝ) : ℕ → ℕ → ℝ :=
  fun n n' => pdist m C (x n) (y n')

/-- Maximum of `f` over a finite set (`0` on the empty set, where the
source would raise). -/
def maxOverD {α : Type} (s : Finset α) (f : α → ℝ) : ℝ :=
  if h : s.Nonempty then s.sup' h f else 0

/-- Minimum of `f` over a finite set (`0` on the empty set, where the
source would raise). -/
def minOverD {α : Type} (s : Finset α) (f : α → ℝ) : ℝ :=
  if h : s.Nonempty then s.inf' h f else 0

/-- Modelled from the spec: the reduction strategies of
`lib.tensor_ops.distance_tensor_redux` ("mean/min/max over shingle pairs"). -/
inductive ReduxStrategy
  | mean
  | rmin
  | rmax

/-- A masked shingle pair is excluded; `none` masks nothing. -/
def maskOk (mask : Option (ℕ → ℕ → Bool)) (s1 s2 : ℕ) : Bool :=
  match mask with
  | none => false
  | some f => f s1 s2

/-- Modelled from the spec: the index set a reduction aggregates over —
all shingle pairs, with optionally the masked ones excluded. -/
def reduxSet (S1 S2 : ℕ) (mask : Option (ℕ → ℕ → Bool)) : Finset (ℕ × ℕ) :=
  (Finset.range S1 ×ˢ Finset.range S2).filter (fun p => maskOk mask p.1 p.2 = false)

/-- Modelled from the spec: `lib.tensor_ops.distance_tensor_redux`,
applied to one `(b1, b2)` slice of the 4-D distance tensor:
mean/min/max of the per-shingle-pair values over the unmasked pairs. -/
def reduxApply (strat : ReduxStrategy) (S1 S2 : ℕ) (d : ℕ → ℕ → ℝ)
    (mask : Option (ℕ → ℕ → Bool)) : ℝ :=
  match strat with
  | .mean => (∑ p ∈ reduxSet S1 S2 mask, d p.1 p.2) / ((reduxSet S1 S2 mask).card : ℝ)
  | .rmin =>
      if h : (reduxSet S1 S2 mask).Nonempty then
        (reduxSet S1 S2 mask).inf' h (fun p => d p.1 p.2)
      else 0
  | .rmax =>
      if h : (reduxSet S1 S2 mask).Nonempty then
        (reduxSet S1 S2 mask).sup' h (fun p => d p.1 p.2)
      else 0

/-- `conf.shingling`. -/
structure ShinglingConf where
  len : ℚ
  hop : ℚ

/-- `conf.cqt.pool`. -/
structure CqtPoolConf where
  len : ℕ
  hop : ℕ

/-- `conf.cqt`. -/
structure CqtConf where
  noctaves : ℕ
  nbinsoct : ℕ
  hoplen : ℚ
  pool : CqtPoolConf

/-- The configuration fields the module reads. -/
structure Conf where
  shingling : ShinglingConf
  cqt : CqtConf
  ncha_in : ℕ
  zdim : ℕ
  margin : ℝ
  lamb : ℝ

/-- The model: configuration plus the external (library) components.
`cqtF` is the nnAudio CQT (input length, then signal, then bin and
frame index); `cqtOutLen` its output frame count; `net` the five
convolution blocks of lines 32-76 followed by the final squeeze,
producing a feature vector of dimension `16 * ncha_in`; `fcW`/`fcB`
the weights of `self.fc`. -/
structure Model where
  conf : Conf
  sr : ℕ
  eps : ℝ
  cqtF : ℕ → (ℕ → ℝ) → ℕ → ℕ → ℝ
  cqtOutLen : ℕ → ℕ
  net : (ℕ → ℕ → ℝ) → ℕ → ℝ
  fcW : ℕ → ℕ → ℝ
  fcB : ℕ → ℝ

/-- `self.cqtbins = noctaves * nbinsoct` (line 18). -/
def cqtbins (M : Model) : ℕ := M.conf.cqt.noctaves * M.conf.cqt.nbinsoct

/-- `16 * ncha`: the feature dimension entering `self.fc` (line 77). -/
def nchaFeat (M : Model) : ℕ := 16 * M.conf.ncha_in

/-- Modelled from the spec: number of frames produced by
`lib.tensor_ops.get_frames` with zero padding — frame `s` starts at
`s * fhop`, and frames cover the whole signal. -/
def numFrames (T flen fhop : ℕ) : ℕ :=
  if T ≤ flen then 1 else (T - flen + fhop - 1) / fhop + 1

/-- Modelled from the spec: `lib.tensor_ops.get_frames` with
`pad_mode="zeros"` — frame `s` of a length-`T` signal is the window of
length `flen` starting at `s * fhop`, zero beyond the signal end. -/
def getFrames (h : ℕ → ℝ) (T flen fhop : ℕ) : ℕ → ℕ → ℝ :=
  fun s t => if t < flen ∧ s * fhop + t < T then h (s * fhop + t) else 0

/-- Modelled from the spec: values of `lib.tensor_ops.force_length`
with `pad_mode="zeros"` on a vector of length `L`: the original values
below `L`, zeros above. -/
def forceLength (v : ℕ → ℝ) (L : ℕ) : ℕ → ℝ :=
  fun t => if t < L then v t else 0

/-- Modelled from the spec: output length of
`lib.tensor_ops.force_length` with `allow_longer=True`: padded up to
`minL`, longer input passes unchanged. -/
def forceLengthLen (L minL : ℕ) : ℕ := max minL L

/-- `torch.nn.AvgPool1d(plen, stride=phop)` on a `(C, T)` tensor. -/
def avgPool1d (plen phop : ℕ) (x : ℕ → ℕ → ℝ) : ℕ → ℕ → ℝ :=
  fun ch t => (∑ k ∈ Finset.range plen, x ch (t * phop + k)) / (plen : ℝ)

/-- Output length of `torch.nn.AvgPool1d(plen, stride=phop)`. -/
def avgPool1dLen (plen phop n : ℕ) : ℕ := (n - plen) / phop + 1

/-- `int(self.sr * slen)` with the `prepare` default (line 108, 112). -/
def frameLenOf (M : Model) (slenO : Option ℚ) : ℕ :=
  natFloor ((M.sr : ℚ) * slenO.getD M.conf.shingling.len)

/-- `int(self.sr * shop)` with the `prepare` default (line 109, 112). -/
def frameHopOf (M : Model) (shopO : Option ℚ) : ℕ :=
  natFloor ((M.sr : ℚ) * shopO.getD M.conf.shingling.hop)

/-- `int(self.sr * self.minlen)` (line 116), `self.minlen = conf.shingling.len`. -/
def minSamp (M : Model) : ℕ := natFloor ((M.sr : ℚ) * M.conf.shingling.len)

/-- Length of each shingle after `force_length` (line 115-117). -/
def shingleLenOf (M : Model) (slenO : Option ℚ) : ℕ :=
  forceLengthLen (frameLenOf M slenO) (minSamp M)

/-- Number of shingles `prepare` produces from a length-`T` waveform. -/
def prepareS (M : Model) (slenO shopO : Option ℚ) (T : ℕ) : ℕ :=
  numFrames T (frameLenOf M slenO) (frameHopOf M shopO)

/-- Number of pooled spectrogram frames per shingle. -/
def prepareT (M : Model) (slenO : Option ℚ) : ℕ :=
  avgPool1dLen M.conf.cqt.pool.len M.conf.cqt.pool.hop (M.cqtOutLen (shingleLenOf M slenO))

/-- `Model.prepare` (lines 99-124): shingle framing, minimum-length
padding, CQT and temporal pooling, with the `b s -> (b s)` flatten and
the final `(b s) c t -> b s c t` unflatten of the source embedded as
index arithmetic. -/
def prepareOut (M : Model) (slenO shopO : Option ℚ) (h : ℕ → ℕ → ℝ) (B T : ℕ) :
    ℕ → ℕ → ℕ → ℕ → ℝ :=
  fun b s c t =>
    avgPool1d M.conf.cqt.pool.len M.conf.cqt.pool.hop
      (M.cqtF (shingleLenOf M slenO)
        (forceLength
          (getFrames (h ((b * prepareS M slenO shopO T + s) / prepareS M slenO shopO T))
            T (frameLenOf M slenO) (frameHopOf M shopO)
            ((b * prepareS M slenO shopO T + s) % prepareS M slenO shopO T))
          (frameLenOf M slenO)))
      c t

/-- The `eps` of `torch.nn.functional.normalize` (its default, line 142). -/
def normEps : ℝ := 1e-12

/-- `torch.nn.functional.normalize(·, dim=-1)` on a `D`-dimensional vector. -/
def l2normalize (D : ℕ) (eps : ℝ) (v : ℕ → ℝ) : ℕ → ℝ :=
  fun c => v c / max (vecNorm D v) eps

/-- `self.fc` (line 77/141): linear map from `16 * ncha` features to `zdim`. -/
def fcApply (M : Model) (v : ℕ → ℝ) : ℕ → ℝ :=
  fun j => (∑ k ∈ Finset.range (nchaFeat M), M.fcW j k * v k) + M.fcB j

/-- The per-sample scale of line 133: maximum absolute value over the
channel and time dimensions, plus `self.eps`. -/
def scaleFactor (M : Model) (C T : ℕ) (x : ℕ → ℕ → ℝ) : ℝ :=
  maxOverD ((Finset.range C) ×ˢ (Finset.range T)) (fun p => |x p.1 p.2|) + M.eps

/-- The value entering `normalize` in `embed` for flattened sample `n`:
scaling, the five blocks, squeeze and `self.fc` (lines 132-141). -/
def preEmbed (M : Model) (S C T : ℕ) (h : ℕ → ℕ → ℕ → ℕ → ℝ) (n : ℕ) : ℕ → ℝ :=
  fcApply M
    (M.net (fun c t =>
      h (n / S) (n % S) c t / scaleFactor M C T (fun c' t' => h (n / S) (n % S) c' t')))

/-- `Model.embed` (lines 126-144) on a `(B, S, C, T)` input. -/
def embedOut (M : Model) (S C T : ℕ) (h : ℕ → ℕ → ℕ → ℕ → ℝ) : ℕ → ℕ → ℕ → ℝ :=
  fun b s => l2normalize M.conf.zdim normEps (preEmbed M S C T h (b * S + s))

/-- `Model.forward` (lines 87-97): `prepare` then `embed`
(`inference_mode` and `clone` do not change values). -/
def forwardOut (M : Model) (slenO shopO : Option ℚ) (h : ℕ → ℕ → ℝ) (B T : ℕ) :
    ℕ → ℕ → ℕ → ℝ :=
  embedOut M (prepareS M slenO shopO T) (cqtbins M) (prepareT M slenO)
    (prepareOut M slenO shopO h B T)

/-- Shape of the `embed` output for a `(B, S, C, T)` input (line 144,
`self.fc` out-features `zdim`). -/
def embedShape (M : Model) (B S C T : ℕ) : ℕ × ℕ × ℕ := (B, S, M.conf.zdim)

/-- Shape of the `forward` output for a `(B, T)` waveform batch. -/
def forwardShape (M : Model) (slenO shopO : Option ℚ) (B T : ℕ) : ℕ × ℕ × ℕ :=
  embedShape M B (prepareS M slenO shopO T) (cqtbins M) (prepareT M slenO)

/-- `b s c -> (b s) c` flatten of the loss (line 158). -/
def zflat (z : ℕ → ℕ → ℕ → ℝ) (S : ℕ) : ℕ → ℕ → ℝ :=
  fun n => z (n / S) (n % S)

/-- Same label and off the diagonal (line 159-161). -/
def positiveP (label : ℕ → ℕ) (i j : ℕ) : Prop := label i = label j ∧ i ≠ j

/-- Different label and off the diagonal (line 162). -/
def negativeP (label : ℕ → ℕ) (i j : ℕ) : Prop := ¬(label i = label j) ∧ i ≠ j

instance (label : ℕ → ℕ) (i j : ℕ) : Decidable (positiveP label i j) :=
  inferInstanceAs (Decidable (label i = label j ∧ i ≠ j))

instance (label : ℕ → ℕ) (i j : ℕ) : Decidable (negativeP label i j) :=
  inferInstanceAs (Decidable (¬(label i = label j) ∧ i ≠ j))

/-- `dlimit = 1.1 * math.sqrt(2 * z.size(1))` (line 163), where `z`
has been flattened to `(B*S, C)`, so `z.size(1) = C`. -/
def dlimit (C : ℕ) : ℝ := 1.1 * Real.sqrt (2 * (C : ℝ))

/-- The `(b1, b2)` distance matrix of the loss (lines 165-167):
Euclidean distances on the flattened embeddings, unflattened and
reduced by `mean` over shingle pairs. -/
def distMat (z : ℕ → ℕ → ℕ → ℝ) (S C : ℕ) : ℕ → ℕ → ℝ :=
  fun b1 b2 =>
    reduxApply .mean S S
      (fun s1 s2 =>
        pairwiseDistanceMatrix .euc C (zflat z S) (zflat z S) (b1 * S + s1) (b2 * S + s2))
      none

/-- The `(b1, b2)` similarity matrix of the loss (lines 173-175):
dot-product similarities, reduced by `mean` over shingle pairs. -/
def simMat (z : ℕ → ℕ → ℕ → ℝ) (S C : ℕ) : ℕ → ℕ → ℝ :=
  fun b1 b2 =>
    reduxApply .mean S S
      (fun s1 s2 =>
        pairwiseDistanceMatrix .dotsim C (zflat z S) (zflat z S) (b1 * S + s1) (b2 * S + s2))
      none

/-- `torch.where(positive, dist, -dlimit).max(1)[0]` at row `i` (line 168). -/
def dposD (label : ℕ → ℕ) (z : ℕ → ℕ → ℕ → ℝ) (B S C : ℕ) (i : ℕ) : ℝ :=
  maxOverD (Finset.range B)
    (fun j => if positiveP label i j then distMat z S C i j else -(dlimit C))

/-- `torch.where(negative, dist, dlimit).min(1)[0]` at row `i` (line 169). -/
def dnegD (label : ℕ → ℕ) (z : ℕ → ℕ → ℕ → ℝ) (B S C : ℕ) (i : ℕ) : ℝ :=
  minOverD (Finset.range B)
    (fun j => if negativeP label i j then distMat z S C i j else dlimit C)

/-- `loss_trip` (line 170): batch mean of the hinge terms. -/
def lossTrip (M : Model) (label : ℕ → ℕ) (z : ℕ → ℕ → ℕ → ℝ) (B S C : ℕ) : ℝ :=
  (∑ i ∈ Finset.range B,
    relu (dposD label z B S C i - dnegD label z B S C i + M.conf.margin)) / (B : ℝ)

/-- `negative.sum()`: the number of negative pairs in the batch. -/
def negCount (label : ℕ → ℕ) (B : ℕ) : ℕ :=
  ((Finset.range B ×ˢ Finset.range B).filter (fun p => negativeP label p.1 p.2)).card

/-- `loss_reg` (line 176): indicator-weighted sum of squared mean
similarities over all pairs, divided by the negative-pair count plus `eps`. -/
def lossReg (M : Model) (label : ℕ → ℕ) (z : ℕ → ℕ → ℕ → ℝ) (B S C : ℕ) : ℝ :=
  (∑ p ∈ Finset.range B ×ˢ Finset.range B,
      (if negativeP label p.1 p.2 then (1 : ℝ) else 0) * simMat z S C p.1 p.2 ^ 2) /
    ((negCount label B : ℝ) + M.eps)

/-- `loss = loss_trip + self.lamb * loss_reg` (line 178). -/
def lossOut (M : Model) (label : ℕ → ℕ) (z : ℕ → ℕ → ℕ → ℝ) (B S C : ℕ) : ℝ :=
  lossTrip M label z B S C + M.conf.lamb * lossReg M label z B S C

/-- `Model.distances` (lines 190-214): cosine distances on the
flattened stacks, optional mask built only when both masks are given,
reduction with default strategy `min`. -/
def distancesOut (M : Model) (q c : ℕ → ℕ → ℕ → ℝ)
    (qmask cmask : Option (ℕ → ℕ → Bool)) (stratO : Option ReduxStrategy)
    (S1 S2 C : ℕ) : ℕ → ℕ → ℝ :=
  fun i j =>
    reduxApply (stratO.getD .rmin) S1 S2
      (fun s1 s2 =>
        pairwiseDistanceMatrix .cos C
          (fun n => q (n / S1) (n % S1)) (fun n => c (n / S2) (n % S2))
          (i * S1 + s1) (j * S2 + s2))
      (match qmask, cmask with
       | some qm, some cm =>
           some (fun s1 s2 =>
             qm ((i * S1 + s1) / S1) ((i * S1 + s1) % S1) ||
             cm ((j * S2 + s2) / S2) ((j * S2 + s2) % S2))
       | _, _ => none)

/-- Claim C2's per-pair distance, following the spec's words: the mean
over all `S × S` shingle pairs of the Euclidean distances between the
shingle embeddings of items `i` and `j`. -/
def distClaim (z : ℕ → ℕ → ℕ → ℝ) (S C : ℕ) (i j : ℕ) : ℝ :=
  (∑ s1 ∈ Finset.range S, ∑ s2 ∈ Finset.range S, pdist .euc C (z i s1) (z j s2)) /
    ((S * S : ℕ) : ℝ)

/-- Claim C2's triplet term, following the spec's words: batch mean of
`relu(dpos - dneg + margin)` with `dpos` the maximum mean distance over
positive partners and `dneg` the minimum over negative partners. -/
def tripClaim (M : Model) (label : ℕ → ℕ) (z : ℕ → ℕ → ℕ → ℝ) (B S C : ℕ) : ℝ :=
  (∑ i ∈ Finset.range B,
    relu
      (maxOverD ((Finset.range B).filter (fun j => positiveP label i j))
          (fun j => distClaim z S C i j) -
        minOverD ((Finset.range B).filter (fun j => negativeP label i j))
          (fun j => distClaim z S C i j) +
        M.conf.margin)) / (B : ℝ)

/-- A concrete model instance for witnesses and counterexamples. -/
def mkModel (margin : ℝ) : Model where
  conf :=
    { shingling := ⟨1, 1⟩
      cqt := { noctaves := 1, nbinsoct := 1, hoplen := 1, pool := ⟨1, 1⟩ }
      ncha_in := 0
      zdim := 1
      margin := margin
      lamb := 1 }
  sr := 1
  eps := 1
  cqtF := fun _ _ _ _ => 0
  cqtOutLen := fun n => n
  net := fun _ _ => 0
  fcW := fun _ _ => 1
  fcB := fun _ => 1

/-- Labels `[0, 0, 1, 1]` on a batch of four. -/
def lblHalf : ℕ → ℕ := fun i => i / 2

/-- Identity labels: every batch item in its own class. -/
def lblId : ℕ → ℕ := fun i => i

/-- Unnormalized 1-D embeddings `[0, 0, 3, 3]`. -/
def zGap : ℕ → ℕ → ℕ → ℝ := fun b _ _ => if b < 2 then 0 else 3

/-- Unit 2-D embeddings `[(1,0), (1,0), (0,1), (0,1)]`. -/
def zUnit2 : ℕ → ℕ → ℕ → ℝ := fun b _ c =>
  if b < 2 then (if c = 0 then 1 else 0) else (if c = 1 then 1 else 0)

/-- The same unit 2-D embedding `(1, 0)` for every batch item. -/
def zSame : ℕ → ℕ → ℕ → ℝ := fun _ _ c => if c = 0 then 1 else 0

/-! ### Helper lemmas -/

lemma flat_div {S i s : ℕ} (hs : s < S) : (i * S + s) / S = i := by
  have hS : 0 < S := Nat.lt_of_le_of_lt (Nat.zero_le s) hs
  rw [add_comm (i * S) s, mul_comm i S, Nat.add_mul_div_left s i hS,
    Nat.div_eq_of_lt hs, zero_add]

lemma flat_mod {S i s : ℕ} (hs : s < S) : (i * S + s) % S = s := by
  rw [mul_comm i S, Nat.mul_add_mod, Nat.mod_eq_of_lt hs]

lemma numFrames_pos (T flen fhop : ℕ) : 0 < numFrames T flen fhop := by
  unfold numFrames
  split
  · exact Nat.one_pos
  · exact Nat.succ_pos _

lemma reduxSet_none (S1 S2 : ℕ) : reduxSet S1 S2 none = Finset.range S1 ×ˢ Finset.range S2 := by
  unfold reduxSet maskOk
  simp

lemma mem_reduxSet_lt {S1 S2 : ℕ} {m : Option (ℕ → ℕ → Bool)} {p : ℕ × ℕ}
    (hp : p ∈ reduxSet S1 S2 m) : p.1 < S1 ∧ p.2 < S2 := by
  unfold reduxSet at hp
  rw [Finset.mem_filter, Finset.mem_product] at hp
  exact ⟨Finset.mem_range.mp hp.1.1, Finset.mem_range.mp hp.1.2⟩

lemma reduxSet_congr {S1 S2 : ℕ} {m1 m2 : Option (ℕ → ℕ → Bool)}
    (hm : ∀ s1 < S1, ∀ s2 < S2, maskOk m1 s1 s2 = maskOk m2 s1 s2) :
    reduxSet S1 S2 m1 = reduxSet S1 S2 m2 := by
  unfold reduxSet
  apply Finset.filter_congr
  intro p hp
  rw [Finset.mem_product] at hp
  rw [hm p.1 (Finset.mem_range.mp hp.1) p.2 (Finset.mem_range.mp hp.2)]

lemma reduxApply_congr (strat : ReduxStrategy) {S1 S2 : ℕ} {d1 d2 : ℕ → ℕ → ℝ}
    {m1 m2 : Option (ℕ → ℕ → Bool)}
    (hm : ∀ s1 < S1, ∀ s2 < S2, maskOk m1 s1 s2 = maskOk m2 s1 s2)
    (hd : ∀ s1 < S1, ∀ s2 < S2, d1 s1 s2 = d2 s1 s2) :
    reduxApply strat S1 S2 d1 m1 = reduxApply strat S1 S2 d2 m2 := by
  have hset := reduxSet_congr hm
  have hfun : ∀ p ∈ reduxSet S1 S2 m2, d1 p.1 p.2 = d2 p.1 p.2 := by
    intro p hp
    obtain ⟨h1, h2⟩ := mem_reduxSet_lt hp
    exact hd p.1 h1 p.2 h2
  cases strat with
  | mean =>
      simp only [reduxApply]
      rw [hset]
      congr 1
      exact Finset.sum_congr rfl hfun
  | rmin =>
      simp only [reduxApply]
      rw [hset]
      by_cases h : (reduxSet S1 S2 m2).Nonempty
      · rw [dif_pos h, dif_pos h]
        exact Finset.inf'_congr h rfl hfun
      · rw [dif_neg h, dif_neg h]
  | rmax =>
      simp only [reduxApply]
      rw [hset]
      by_cases h : (reduxSet S1 S2 m2).Nonempty
      · rw [dif_pos h, dif_pos h]
        exact Finset.sup'_congr h rfl hfun
      · rw [dif_neg h, dif_neg h]

lemma maxOverD_ite {s : Finset ℕ} {P : ℕ → Prop} [DecidablePred P] {f : ℕ → ℝ} {c : ℝ}
    (hne : (s.filter P).Nonempty) (hcf : ∀ a ∈ s, c ≤ f a) :
    maxOverD s (fun a => if P a then f a else c) = maxOverD (s.filter P) f := by
  have hs : s.Nonempty := Finset.Nonempty.mono (Finset.filter_subset P s) hne
  unfold maxOverD
  rw [dif_pos hs, dif_pos hne]
  apply le_antisymm
  · apply Finset.sup'_le
    intro a ha
    by_cases hPa : P a
    · rw [if_pos hPa]
      exact Finset.le_sup' f (Finset.mem_filter.mpr ⟨ha, hPa⟩)
    · rw [if_neg hPa]
      obtain ⟨a0, ha0⟩ := hne
      exact le_trans (hcf a0 (Finset.mem_filter.mp ha0).1) (Finset.le_sup' f ha0)
  · apply Finset.sup'_le
    intro a ha
    have has : a ∈ s := (Finset.mem_filter.mp ha).1
    have hPa : P a := (Finset.mem_filter.mp ha).2
    calc f a = if P a then f a else c := (if_pos hPa).symm
      _ ≤ _ := Finset.le_sup' (fun a => if P a then f a else c) has

lemma minOverD_ite {s : Finset ℕ} {P : ℕ → Prop} [DecidablePred P] {f : ℕ → ℝ} {c : ℝ}
    (hne : (s.filter P).Nonempty) (hfc : ∀ a ∈ s, f a ≤ c) :
    minOverD s (fun a => if P a then f a else c) = minOverD (s.filter P) f := by
  have hs : s.Nonempty := Finset.Nonempty.mono (Finset.filter_subset P s) hne
  unfold minOverD
  rw [dif_pos hs, dif_pos hne]
  apply le_antisymm
  · apply Finset.le_inf'
    intro a ha
    have has : a ∈ s := (Finset.mem_filter.mp ha).1
    have hPa : P a := (Finset.mem_filter.mp ha).2
    calc (s.inf' hs fun a => if P a then f a else c) ≤ if P a then f a else c :=
          Finset.inf'_le (fun a => if P a then f a else c) has
      _ = f a := if_pos hPa
  · apply Finset.le_inf'
    intro a ha
    by_cases hPa : P a
    · calc ((s.filter P).inf' hne f) ≤ f a := Finset.inf'_le f (Finset.mem_filter.mpr ⟨ha, hPa⟩)
        _ = if P a then f a else c := (if_pos hPa).symm
    · have hne2 := hne
      obtain ⟨a0, ha0⟩ := hne2
      calc ((s.filter P).inf' hne f) ≤ f a0 := Finset.inf'_le f ha0
        _ ≤ c := hfc a0 (Finset.mem_filter.mp ha0).1
        _ = if P a then f a else c := (if_neg hPa).symm

lemma maxOverD_le {s : Finset α} {f : α → ℝ} {x : ℝ} (hx : 0 ≤ x)
    (h : ∀ a ∈ s, f a ≤ x) : maxOverD s f ≤ x := by
  unfold maxOverD
  split
  · exact Finset.sup'_le _ f h
  · exact hx

lemma le_minOverD {s : Finset α} {f : α → ℝ} {x : ℝ} (hx : x ≤ 0)
    (h : ∀ a ∈ s, x ≤ f a) : x ≤ minOverD s f := by
  unfold minOverD
  split
  · exact Finset.le_inf' _ _ h
  · exact hx

lemma maxOverD_const_on {s : Finset α} {f : α → ℝ} {c : ℝ} (hs : s.Nonempty)
    (h : ∀ a ∈ s, f a = c) : maxOverD s f = c := by
  unfold maxOverD
  rw [dif_pos hs]
  rw [Finset.sup'_congr hs rfl h, Finset.sup'_const]

lemma minOverD_const_on {s : Finset α} {f : α → ℝ} {c : ℝ} (hs : s.Nonempty)
    (h : ∀ a ∈ s, f a = c) : minOverD s f = c := by
  unfold minOverD
  rw [dif_pos hs]
  rw [Finset.inf'_congr hs rfl h, Finset.inf'_const]

lemma normEps_pos : (0 : ℝ) < normEps := by
  unfold normEps
  norm_num

lemma l2normalize_normSq {D : ℕ} {eps : ℝ} {v : ℕ → ℝ} (heps : 0 < eps)
    (h : eps ≤ vecNorm D v) :
    ∑ c ∈ Finset.range D, l2normalize D eps v c ^ 2 = 1 := by
  have hN : 0 < vecNorm D v := lt_of_lt_of_le heps h
  have hsq : vecNorm D v ^ 2 = ∑ c ∈ Finset.range D, v c ^ 2 :=
    Real.sq_sqrt (Finset.sum_nonneg fun c _ => sq_nonneg _)
  simp only [l2normalize, max_eq_left h, div_pow]
  rw [← Finset.sum_div, ← hsq]
  exact div_self (pow_ne_zero 2 hN.ne')

lemma distances_both (M : Model) (q c : ℕ → ℕ → ℕ → ℝ) (qm cm : ℕ → ℕ → Bool)
    (stratO : Option ReduxStrategy) (S1 S2 C : ℕ) (i j : ℕ) :
    distancesOut M q c (some qm) (some cm) stratO S1 S2 C i j =
      reduxApply (stratO.getD .rmin) S1 S2
        (fun s1 s2 => pdist .cos C (q i s1) (c j s2))
        (some (fun s1 s2 => qm i s1 || cm j s2)) := by
  simp only [distancesOut, pairwiseDistanceMatrix]
  apply reduxApply_congr
  · intro s1 h1 s2 h2
    simp only [maskOk]
    rw [flat_div h1, flat_mod h1, flat_div h2, flat_mod h2]
  · intro s1 h1 s2 h2
    rw [flat_div h1, flat_mod h1, flat_div h2, flat_mod h2]

lemma distances_nomask (M : Model) (q c : ℕ → ℕ → ℕ → ℝ)
    (stratO : Option ReduxStrategy) (S1 S2 C : ℕ) (i j : ℕ) :
    distancesOut M q c none none stratO S1 S2 C i j =
      reduxApply (stratO.getD .rmin) S1 S2
        (fun s1 s2 => pdist .cos C (q i s1) (c j s2)) none := by
  simp only [distancesOut, pairwiseDistanceMatrix]
  apply reduxApply_congr
  · intro s1 _ s2 _
    rfl
  · intro s1 h1 s2 h2
    rw [flat_div h1, flat_mod h1, flat_div h2, flat_mod h2]

/-- C5: each entry `(i, j)` of the matrix returned by `distances` is
the chosen reduction over the `S1 × S2` per-shingle cosine distances
between query `i` and candidate `j`; when both masks are given, the
reduction mask of a shingle pair is `qmask i s1 || cmask j s2`. -/
theorem distances_entry_formula (M : Model) (q c : ℕ → ℕ → ℕ → ℝ)
    (qm cm : ℕ → ℕ → Bool) (strat : ReduxStrategy) (S1 S2 C : ℕ) (i j : ℕ) :
    (distancesOut M q c (some qm) (some cm) (some strat) S1 S2 C i j =
      reduxApply strat S1 S2 (fun s1 s2 => pdist .cos C (q i s1) (c j s2))
        (some (fun s1 s2 => qm i s1 || cm j s2))) ∧
    (distancesOut M q c none none (some strat) S1 S2 C i j =
      reduxApply strat S1 S2 (fun s1 s2 => pdist .cos C (q i s1) (c j s2)) none) :=
  ⟨distances_both M q c qm cm (some strat) S1 S2 C i j,
   distances_nomask M q c (some strat) S1 S2 C i j⟩

/-- C8: `distances` applies masking only when both `qmask` and `cmask`
are given — a single mask is silently ignored — and when both are
given, shingle pair `(s1, s2)` of entry `(i, j)` is masked exactly
when `qmask` marks `s1` or `cmask` marks `s2`. -/
theorem distances_mask_rules (M : Model) (q c : ℕ → ℕ → ℕ → ℝ)
    (qm cm : ℕ → ℕ → Bool) (stratO : Option ReduxStrategy) (S1 S2 C : ℕ) :
    (distancesOut M q c (some qm) none stratO S1 S2 C =
      distancesOut M q c none none stratO S1 S2 C) ∧
    (distancesOut M q c none (some cm) stratO S1 S2 C =
      distancesOut M q c none none stratO S1 S2 C) ∧
    (∀ i j, distancesOut M q c (some qm) (some cm) stratO S1 S2 C i j =
      reduxApply (stratO.getD .rmin) S1 S2
        (fun s1 s2 => pdist .cos C (q i s1) (c j s2))
        (some (fun s1 s2 => qm i s1 || cm j s2))) :=
  ⟨rfl, rfl, fun i j => distances_both M q c qm cm stratO S1 S2 C i j⟩

/-- C10: with `redux_strategy = None`, `distances` reduces with the
`min` strategy: in the unmasked case, entry `(i, j)` is the minimum
per-shingle-pair cosine distance between query `i` and candidate `j`. -/
theorem distances_default_min (M : Model) (q c : ℕ → ℕ → ℕ → ℝ)
    (qmask cmask : Option (ℕ → ℕ → Bool)) (S1 S2 C : ℕ) (i j : ℕ)
    (h1 : 0 < S1) (h2 : 0 < S2) :
    (distancesOut M q c qmask cmask none S1 S2 C =
      distancesOut M q c qmask cmask (some .rmin) S1 S2 C) ∧
    distancesOut M q c none none none S1 S2 C i j =
      (Finset.range S1 ×ˢ Finset.range S2).inf'
        (Finset.Nonempty.product ⟨0, Finset.mem_range.mpr h1⟩ ⟨0, Finset.mem_range.mpr h2⟩)
        (fun p => pdist .cos C (q i p.1) (c j p.2)) := by
  constructor
  · rfl
  · rw [distances_nomask]
    simp only [Option.getD, reduxApply, reduxSet_none]
    rw [dif_pos (Finset.Nonempty.product ⟨0, Finset.mem_range.mpr h1⟩
      ⟨0, Finset.mem_range.mpr h2⟩)]

/-- C3: the value returned by `loss` is the triplet hinge term plus
`lamb` times the regularizer; the regularizer is the sum over negative
(different-label, off-diagonal) pairs of the squared mean dot-product
similarity, divided by the number of negative pairs plus `eps`; the
mean similarity of a pair is the mean over all `S × S` shingle pairs
of the dot products. -/
theorem loss_total_formula (M : Model) (label : ℕ → ℕ) (z : ℕ → ℕ → ℕ → ℝ) (B S C : ℕ) :
    (lossOut M label z B S C =
      lossTrip M label z B S C + M.conf.lamb * lossReg M label z B S C) ∧
    (lossReg M label z B S C =
      (∑ p ∈ (Finset.range B ×ˢ Finset.range B).filter
          (fun p => negativeP label p.1 p.2), simMat z S C p.1 p.2 ^ 2) /
        ((negCount label B : ℝ) + M.eps)) ∧
    (∀ i j, simMat z S C i j =
      (∑ s1 ∈ Finset.range S, ∑ s2 ∈ Finset.range S,
        ∑ ch ∈ Finset.range C, z i s1 ch * z j s2 ch) / ((S * S : ℕ) : ℝ)) := by
  refine ⟨rfl, ?_, ?_⟩
  · unfold lossReg
    congr 1
    rw [Finset.sum_filter]
    apply Finset.sum_congr rfl
    intro p _
    rw [ite_mul, one_mul, zero_mul]
  · intro i j
    simp only [simMat, reduxApply, reduxSet_none, pairwiseDistanceMatrix]
    rw [Finset.sum_product, Finset.card_product, Finset.card_range]
    congr 1
    apply Finset.sum_congr rfl
    intro s1 hs1
    apply Finset.sum_congr rfl
    intro s2 hs2
    simp only [pdist, zflat]
    rw [flat_div (Finset.mem_range.mp hs1), flat_mod (Finset.mem_range.mp hs1),
      flat_div (Finset.mem_range.mp hs2), flat_mod (Finset.mem_range.mp hs2)]

/-- C4: `prepare` is exactly, in order: (1) framing into shingles of
length `int(sr*slen)` with hop `int(sr*shop)` and zero padding,
(2) zero-padding each shingle up to `int(sr * conf.shingling.len)`
(longer shingles pass unchanged), (3) the constant-Q spectrogram per
shingle, (4) temporal average pooling. -/
theorem prepare_pipeline (M : Model) (slenO shopO : Option ℚ) (h : ℕ → ℕ → ℝ)
    (B T b s c t : ℕ) (hs : s < prepareS M slenO shopO T) :
    prepareOut M slenO shopO h B T b s c t =
      avgPool1d M.conf.cqt.pool.len M.conf.cqt.pool.hop
        (M.cqtF (forceLengthLen (frameLenOf M slenO) (minSamp M))
          (forceLength
            (getFrames (h b) T (frameLenOf M slenO) (frameHopOf M shopO) s)
            (frameLenOf M slenO)))
        c t := by
  unfold prepareOut shingleLenOf
  rw [flat_div hs, flat_mod hs]

/-- Witness for `prepare_pipeline` at a concrete model and input. -/
theorem prepare_pipeline_witness :
    0 < prepareS (mkModel 2) none none 1 ∧
    prepareOut (mkModel 2) none none (fun _ _ => 0) 1 1 0 0 0 0 =
      avgPool1d (mkModel 2).conf.cqt.pool.len (mkModel 2).conf.cqt.pool.hop
        ((mkModel 2).cqtF
          (forceLengthLen (frameLenOf (mkModel 2) none) (minSamp (mkModel 2)))
          (forceLength
            (getFrames ((fun _ _ => (0 : ℝ)) 0) 1 (frameLenOf (mkModel 2) none)
              (frameHopOf (mkModel 2) none) 0)
            (frameLenOf (mkModel 2) none)))
        0 0 :=
  ⟨numFrames_pos 1 _ _,
   prepare_pipeline (mkModel 2) none none (fun _ _ => 0) 1 1 0 0 0 0 (numFrames_pos 1 _ _)⟩

/-- C6: `forward` is `prepare` followed by `embed`, with no other
transformation: pointwise, the output is the normalized linear
projection of the network features of the scaled prepared spectrogram. -/
theorem forward_composition (M : Model) (slenO shopO : Option ℚ) (h : ℕ → ℕ → ℝ)
    (B T : ℕ) :
    (forwardOut M slenO shopO h B T =
      embedOut M (prepareS M slenO shopO T) (cqtbins M) (prepareT M slenO)
        (prepareOut M slenO shopO h B T)) ∧
    (∀ b s, s < prepareS M slenO shopO T → ∀ c,
      forwardOut M slenO shopO h B T b s c =
        l2normalize M.conf.zdim normEps
          (fcApply M (M.net (fun cc tt =>
            prepareOut M slenO shopO h B T b s cc tt /
              scaleFactor M (cqtbins M) (prepareT M slenO)
                (prepareOut M slenO shopO h B T b s)))) c) := by
  refine ⟨rfl, ?_⟩
  intro b s hs c
  simp only [forwardOut, embedOut, preEmbed]
  rw [flat_div hs, flat_mod hs]

/-- Witness for `forward_composition` at a concrete model and input. -/
theorem forward_composition_witness :
    0 < prepareS (mkModel 2) none none 1 ∧
    forwardOut (mkModel 2) none none (fun _ _ => 0) 1 1 0 0 0 =
      l2normalize (mkModel 2).conf.zdim normEps
        (fcApply (mkModel 2) ((mkModel 2).net (fun cc tt =>
          prepareOut (mkModel 2) none none (fun _ _ => 0) 1 1 0 0 cc tt /
            scaleFactor (mkModel 2) (cqtbins (mkModel 2)) (prepareT (mkModel 2) none)
              (prepareOut (mkModel 2) none none (fun _ _ => 0) 1 1 0 0)))) 0 :=
  ⟨numFrames_pos 1 _ _,
   (forward_composition (mkModel 2) none none (fun _ _ => 0) 1 1).2 0 0
     (numFrames_pos 1 _ _) 0⟩

/-- C7: for a `(B, T)` waveform batch the output of `forward` has
shape `(B, S, zdim)`: the embedding dimension is `conf.zdim` whatever
`T` is, and only the shingle count `S` depends on `T`; pointwise, each
shingle's embedding is the `zdim`-dimensional normalized projection. -/
theorem forward_shape_zdim (M : Model) (slenO shopO : Option ℚ) (B T : ℕ) :
    (forwardShape M slenO shopO B T =
      (B, numFrames T (frameLenOf M slenO) (frameHopOf M shopO), M.conf.zdim)) ∧
    (∀ h b s c, forwardOut M slenO shopO h B T b s c =
      l2normalize M.conf.zdim normEps
        (preEmbed M (prepareS M slenO shopO T) (cqtbins M) (prepareT M slenO)
          (prepareOut M slenO shopO h B T) (b * prepareS M slenO shopO T + s)) c) :=
  ⟨rfl, fun _ _ _ _ => rfl⟩

/-- C1: every embedding vector returned by `embed` whose
pre-normalization norm clears the `normalize` epsilon guard has
Euclidean norm exactly `1`, and the same holds for `forward`. -/
theorem embed_output_normalized (M : Model) (b s : ℕ) :
    (∀ (S C T : ℕ) (h : ℕ → ℕ → ℕ → ℕ → ℝ),
      normEps ≤ vecNorm M.conf.zdim (preEmbed M S C T h (b * S + s)) →
      ∑ c ∈ Finset.range M.conf.zdim, embedOut M S C T h b s c ^ 2 = 1) ∧
    (∀ (slenO shopO : Option ℚ) (h2 : ℕ → ℕ → ℝ) (B T : ℕ),
      normEps ≤ vecNorm M.conf.zdim
        (preEmbed M (prepareS M slenO shopO T) (cqtbins M) (prepareT M slenO)
          (prepareOut M slenO shopO h2 B T) (b * prepareS M slenO shopO T + s)) →
      ∑ c ∈ Finset.range M.conf.zdim, forwardOut M slenO shopO h2 B T b s c ^ 2 = 1) := by
  constructor
  · intro S C T h hge
    exact l2normalize_normSq normEps_pos hge
  · intro slenO shopO h2 B T hge
    exact l2normalize_normSq normEps_pos hge

/-- Witness for `embed_output_normalized` at a concrete model whose
`fc` bias makes the pre-normalization vector the constant `1`. -/
theorem embed_output_normalized_witness :
    (normEps ≤ vecNorm (mkModel 2).conf.zdim
      (preEmbed (mkModel 2) 1 1 1 (fun _ _ _ _ => 0) (0 * 1 + 0))) ∧
    (∑ c ∈ Finset.range (mkModel 2).conf.zdim,
      embedOut (mkModel 2) 1 1 1 (fun _ _ _ _ => 0) 0 0 c ^ 2 = 1) ∧
    (normEps ≤ vecNorm (mkModel 2).conf.zdim
      (preEmbed (mkModel 2) (prepareS (mkModel 2) none none 1) (cqtbins (mkModel 2))
        (prepareT (mkModel 2) none) (prepareOut (mkModel 2) none none (fun _ _ => 0) 1 1)
        (0 * prepareS (mkModel 2) none none 1 + 0))) ∧
    (∑ c ∈ Finset.range (mkModel 2).conf.zdim,
      forwardOut (mkModel 2) none none (fun _ _ => 0) 1 1 0 0 c ^ 2 = 1) := by
  have hpre : ∀ (S C T : ℕ) (h : ℕ → ℕ → ℕ → ℕ → ℝ) (n : ℕ),
      normEps ≤ vecNorm (mkModel 2).conf.zdim (preEmbed (mkModel 2) S C T h n) := by
    intro S C T h n
    have hval : ∀ j, preEmbed (mkModel 2) S C T h n j = 1 := by
      intro j
      simp [preEmbed, fcApply, nchaFeat, mkModel]
    have hnrm : vecNorm (mkModel 2).conf.zdim (preEmbed (mkModel 2) S C T h n) = 1 := by
      unfold vecNorm
      rw [Finset.sum_congr rfl (fun c _ => by rw [hval c])]
      simp [mkModel]
    rw [hnrm]
    unfold normEps
    norm_num
  have h1 := hpre 1 1 1 (fun _ _ _ _ => 0) (0 * 1 + 0)
  have h2 := hpre (prepareS (mkModel 2) none none 1) (cqtbins (mkModel 2))
    (prepareT (mkModel 2) none) (prepareOut (mkModel 2) none none (fun _ _ => 0) 1 1)
    (0 * prepareS (mkModel 2) none none 1 + 0)
  exact ⟨h1, (embed_output_normalized (mkModel 2) 0 0).1 1 1 1 _ h1, h2,
    (embed_output_normalized (mkModel 2) 0 0).2 none none (fun _ _ => 0) 1 1 h2⟩

/-- Witness for `distances_default_min` at a concrete model, stacks of
one shingle each, and embedding dimension one. -/
theorem distances_default_min_witness :
    (0 < 1) ∧
    (distancesOut (mkModel 2) (fun _ _ _ => (0 : ℝ)) (fun _ _ _ => (0 : ℝ))
        none none none 1 1 1 =
      distancesOut (mkModel 2) (fun _ _ _ => (0 : ℝ)) (fun _ _ _ => (0 : ℝ))
        none none (some .rmin) 1 1 1) ∧
    (distancesOut (mkModel 2) (fun _ _ _ => (0 : ℝ)) (fun _ _ _ => (0 : ℝ))
        none none none 1 1 1 0 0 =
      (Finset.range 1 ×ˢ Finset.range 1).inf'
        (Finset.Nonempty.product ⟨0, Finset.mem_range.mpr Nat.one_pos⟩
          ⟨0, Finset.mem_range.mpr Nat.one_pos⟩)
        (fun p => pdist .cos 1 ((fun _ _ _ => (0 : ℝ)) 0 p.1)
          ((fun _ _ _ => (0 : ℝ)) 0 p.2))) := by
  have h := distances_default_min (mkModel 2) (fun _ _ _ => (0 : ℝ))
    (fun _ _ _ => (0 : ℝ)) none none 1 1 1 0 0 Nat.one_pos Nat.one_pos
  exact ⟨Nat.one_pos, h.1, h.2⟩

lemma pdist_euc_nonneg (C : ℕ) (u v : ℕ → ℝ) : 0 ≤ pdist .euc C u v :=
  Real.sqrt_nonneg _

lemma pdist_euc_le_two {C : ℕ} {u v : ℕ → ℝ}
    (hu : ∑ c ∈ Finset.range C, u c ^ 2 = 1)
    (hv : ∑ c ∈ Finset.range C, v c ^ 2 = 1) :
    pdist .euc C u v ≤ 2 := by
  have hexp : ∑ c ∈ Finset.range C, (u c - v c) ^ 2
      = 2 - 2 * ∑ c ∈ Finset.range C, u c * v c := by
    have h1 : ∀ c ∈ Finset.range C,
        (u c - v c) ^ 2 = (u c ^ 2 + v c ^ 2) - 2 * (u c * v c) := fun c _ => by ring
    rw [Finset.sum_congr rfl h1, Finset.sum_sub_distrib, Finset.sum_add_distrib,
      hu, hv, ← Finset.mul_sum]
    ring
  have hCS : (∑ c ∈ Finset.range C, u c * v c) ^ 2 ≤ 1 := by
    have := Finset.sum_mul_sq_le_sq_mul_sq (Finset.range C) u v
    rwa [hu, hv, one_mul] at this
  have hm1 : -1 ≤ ∑ c ∈ Finset.range C, u c * v c := by
    nlinarith [hCS, sq_nonneg ((∑ c ∈ Finset.range C, u c * v c) + 1)]
  have hle : ∑ c ∈ Finset.range C, (u c - v c) ^ 2 ≤ 4 := by rw [hexp]; linarith
  calc pdist .euc C u v = Real.sqrt (∑ c ∈ Finset.range C, (u c - v c) ^ 2) := rfl
    _ ≤ Real.sqrt 4 := Real.sqrt_le_sqrt hle
    _ = 2 := by
        rw [show (4 : ℝ) = 2 ^ 2 by norm_num]
        exact Real.sqrt_sq (by norm_num)

lemma distClaim_nonneg (z : ℕ → ℕ → ℕ → ℝ) (S C i j : ℕ) : 0 ≤ distClaim z S C i j :=
  div_nonneg
    (Finset.sum_nonneg fun _ _ => Finset.sum_nonneg fun _ _ => pdist_euc_nonneg _ _ _)
    (Nat.cast_nonneg _)

lemma distClaim_le_two {z : ℕ → ℕ → ℕ → ℝ} {S C i j : ℕ} (hS : 0 < S)
    (hi : ∀ s < S, ∑ c ∈ Finset.range C, z i s c ^ 2 = 1)
    (hj : ∀ s < S, ∑ c ∈ Finset.range C, z j s c ^ 2 = 1) :
    distClaim z S C i j ≤ 2 := by
  have hpos : (0 : ℝ) < ((S * S : ℕ) : ℝ) := Nat.cast_pos.mpr (Nat.mul_pos hS hS)
  unfold distClaim
  rw [div_le_iff₀ hpos]
  calc ∑ s1 ∈ Finset.range S, ∑ s2 ∈ Finset.range S, pdist .euc C (z i s1) (z j s2)
      ≤ ∑ s1 ∈ Finset.range S, ∑ s2 ∈ Finset.range S, (2 : ℝ) := by
        apply Finset.sum_le_sum
        intro s1 hs1
        apply Finset.sum_le_sum
        intro s2 hs2
        exact pdist_euc_le_two (hi s1 (Finset.mem_range.mp hs1))
          (hj s2 (Finset.mem_range.mp hs2))
    _ = 2 * ((S * S : ℕ) : ℝ) := by
        simp [Finset.sum_const, Finset.card_range]
        ring

lemma distMat_eq_distClaim (z : ℕ → ℕ → ℕ → ℝ) (S C i j : ℕ) :
    distMat z S C i j = distClaim z S C i j := by
  simp only [distMat, distClaim, reduxApply, reduxSet_none, pairwiseDistanceMatrix]
  rw [Finset.sum_product, Finset.card_product, Finset.card_range]
  congr 1
  apply Finset.sum_congr rfl
  intro s1 hs1
  apply Finset.sum_congr rfl
  intro s2 hs2
  simp only [zflat]
  rw [flat_div (Finset.mem_range.mp hs1), flat_mod (Finset.mem_range.mp hs1),
    flat_div (Finset.mem_range.mp hs2), flat_mod (Finset.mem_range.mp hs2)]

lemma dlimit_nonneg (C : ℕ) : 0 ≤ dlimit C :=
  mul_nonneg (by norm_num) (Real.sqrt_nonneg _)

lemma two_le_dlimit {C : ℕ} (hC : 2 ≤ C) : 2 ≤ dlimit C := by
  unfold dlimit
  have h1 : (4 : ℝ) ≤ 2 * (C : ℝ) := by
    have : (2 : ℝ) ≤ (C : ℝ) := by exact_mod_cast hC
    linarith
  have h2 : Real.sqrt 4 ≤ Real.sqrt (2 * (C : ℝ)) := Real.sqrt_le_sqrt h1
  have h3 : Real.sqrt 4 = 2 := by
    rw [show (4 : ℝ) = 2 ^ 2 by norm_num]
    exact Real.sqrt_sq (by norm_num)
  nlinarith [h2, h3]

lemma dposD_eq_claim {label : ℕ → ℕ} {z : ℕ → ℕ → ℕ → ℝ} {B S C i : ℕ}
    (hpos : ((Finset.range B).filter (fun j => positiveP label i j)).Nonempty) :
    dposD label z B S C i =
      maxOverD ((Finset.range B).filter (fun j => positiveP label i j))
        (fun j => distClaim z S C i j) := by
  unfold dposD
  simp only [distMat_eq_distClaim]
  exact maxOverD_ite hpos
    (fun j _ => le_trans (neg_nonpos.mpr (dlimit_nonneg C)) (distClaim_nonneg z S C i j))

lemma dnegD_eq_claim {label : ℕ → ℕ} {z : ℕ → ℕ → ℕ → ℝ} {B S C i : ℕ}
    (hi : i < B)
    (hneg : ((Finset.range B).filter (fun j => negativeP label i j)).Nonempty)
    (hnorm : ∀ b < B, ∀ s < S, ∑ c ∈ Finset.range C, z b s c ^ 2 = 1)
    (hC : 2 ≤ C) (hS : 0 < S) :
    dnegD label z B S C i =
      minOverD ((Finset.range B).filter (fun j => negativeP label i j))
        (fun j => distClaim z S C i j) := by
  unfold dnegD
  simp only [distMat_eq_distClaim]
  exact minOverD_ite hneg
    (fun j hj => le_trans
      (distClaim_le_two hS (hnorm i hi) (hnorm j (Finset.mem_range.mp hj)))
      (two_le_dlimit hC))

/-- C2 (amended): for a batch in which every item has a positive and a
negative partner, all shingle embeddings are unit-normalized, `C ≥ 2`
and `S ≥ 1`, the triplet term of `loss` is the batch mean of
`relu(dpos - dneg + margin)`, with `dpos`/`dneg` the max/min mean
shingle-pair Euclidean distance over positive/negative partners. -/
theorem loss_triplet_term_formula (M : Model) (label : ℕ → ℕ) (z : ℕ → ℕ → ℕ → ℝ)
    (B S C : ℕ)
    (hpos : ∀ i < B, ((Finset.range B).filter (fun j => positiveP label i j)).Nonempty)
    (hneg : ∀ i < B, ((Finset.range B).filter (fun j => negativeP label i j)).Nonempty)
    (hnorm : ∀ b < B, ∀ s < S, ∑ c ∈ Finset.range C, z b s c ^ 2 = 1)
    (hC : 2 ≤ C) (hS : 0 < S) :
    lossTrip M label z B S C = tripClaim M label z B S C := by
  unfold lossTrip tripClaim
  congr 1
  apply Finset.sum_congr rfl
  intro i hi
  rw [dposD_eq_claim (hpos i (Finset.mem_range.mp hi)),
    dnegD_eq_claim (Finset.mem_range.mp hi) (hneg i (Finset.mem_range.mp hi)) hnorm hC hS]

/-- Witness for `loss_triplet_term_formula` on a concrete batch of
four items with labels `[0,0,1,1]` and unit 2-D embeddings. -/
theorem loss_triplet_term_formula_witness :
    (∀ i < 4, ((Finset.range 4).filter (fun j => positiveP lblHalf i j)).Nonempty) ∧
    (∀ i < 4, ((Finset.range 4).filter (fun j => negativeP lblHalf i j)).Nonempty) ∧
    (∀ b < 4, ∀ s < 1, ∑ c ∈ Finset.range 2, zUnit2 b s c ^ 2 = 1) ∧
    lossTrip (mkModel 2) lblHalf zUnit2 4 1 2 = tripClaim (mkModel 2) lblHalf zUnit2 4 1 2 := by
  have hp : ∀ i < 4, ((Finset.range 4).filter (fun j => positiveP lblHalf i j)).Nonempty := by
    decide
  have hn : ∀ i < 4, ((Finset.range 4).filter (fun j => negativeP lblHalf i j)).Nonempty := by
    decide
  have hnm : ∀ b < 4, ∀ s < 1, ∑ c ∈ Finset.range 2, zUnit2 b s c ^ 2 = 1 := by
    intro b hb s hs
    rw [Finset.sum_range_succ, Finset.sum_range_one]
    unfold zUnit2
    interval_cases b <;> norm_num
  exact ⟨hp, hn, hnm,
    loss_triplet_term_formula (mkModel 2) lblHalf zUnit2 4 1 2 hp hn hnm
      (by norm_num) (by norm_num)⟩

lemma maxOverD_singletonF (a : ℕ) (f : ℕ → ℝ) : maxOverD ({a} : Finset ℕ) f = f a := by
  unfold maxOverD
  rw [dif_pos (Finset.singleton_nonempty a)]
  simp

lemma minOverD_singletonF (a : ℕ) (f : ℕ → ℝ) : minOverD ({a} : Finset ℕ) f = f a := by
  unfold minOverD
  rw [dif_pos (Finset.singleton_nonempty a)]
  simp

lemma maxOverD_pairF (a b : ℕ) (f : ℕ → ℝ) :
    maxOverD ({a, b} : Finset ℕ) f = max (f a) (f b) := by
  unfold maxOverD
  rw [dif_pos (Finset.insert_nonempty a {b})]
  simp [sup_eq_max]

lemma minOverD_pairF (a b : ℕ) (f : ℕ → ℝ) :
    minOverD ({a, b} : Finset ℕ) f = min (f a) (f b) := by
  unfold minOverD
  rw [dif_pos (Finset.insert_nonempty a {b})]
  simp [inf_eq_min]

lemma maxOverD_range_two (f : ℕ → ℝ) : maxOverD (Finset.range 2) f = max (f 0) (f 1) := by
  rw [show (Finset.range 2) = ({0, 1} : Finset ℕ) from by decide]
  exact maxOverD_pairF 0 1 f

lemma minOverD_range_two (f : ℕ → ℝ) : minOverD (Finset.range 2) f = min (f 0) (f 1) := by
  rw [show (Finset.range 2) = ({0, 1} : Finset ℕ) from by decide]
  exact minOverD_pairF 0 1 f

lemma maxOverD_range_four (f : ℕ → ℝ) :
    maxOverD (Finset.range 4) f = max (f 0) (max (f 1) (max (f 2) (f 3))) := by
  rw [show (Finset.range 4) = ({0, 1, 2, 3} : Finset ℕ) from by decide]
  unfold maxOverD
  rw [dif_pos (Finset.insert_nonempty 0 {1, 2, 3})]
  simp [sup_eq_max]

lemma minOverD_range_four (f : ℕ → ℝ) :
    minOverD (Finset.range 4) f = min (f 0) (min (f 1) (min (f 2) (f 3))) := by
  rw [show (Finset.range 4) = ({0, 1, 2, 3} : Finset ℕ) from by decide]
  unfold minOverD
  rw [dif_pos (Finset.insert_nonempty 0 {1, 2, 3})]
  simp [inf_eq_min]

lemma dlimit_two : dlimit 2 = 2.2 := by
  unfold dlimit
  rw [show (2 * ((2 : ℕ) : ℝ)) = 2 ^ 2 by norm_num, Real.sqrt_sq (by norm_num)]
  norm_num

/-- C9 (amended): a batch item with no positive or no negative partner
contributes zero to the hinge term provided the embeddings are
unit-normalized, `C ≥ 2`, `S ≥ 1` and `margin ≤ dlimit - 2`. -/
theorem loss_missing_partner_zero (M : Model) (label : ℕ → ℕ) (z : ℕ → ℕ → ℕ → ℝ)
    (B S C i : ℕ) (hi : i < B)
    (hmiss : ((Finset.range B).filter (fun j => positiveP label i j)) = ∅ ∨
      ((Finset.range B).filter (fun j => negativeP label i j)) = ∅)
    (hnorm : ∀ b < B, ∀ s < S, ∑ c ∈ Finset.range C, z b s c ^ 2 = 1)
    (hC : 2 ≤ C) (hS : 0 < S)
    (hm : M.conf.margin ≤ dlimit C - 2) :
    relu (dposD label z B S C i - dnegD label z B S C i + M.conf.margin) = 0 := by
  have hBne : (Finset.range B).Nonempty := ⟨i, Finset.mem_range.mpr hi⟩
  unfold relu
  apply max_eq_right
  cases hmiss with
  | inl hp =>
      have hpe : ∀ j ∈ Finset.range B, ¬ positiveP label i j := by
        intro j hj hcon
        have hmem : j ∈ (Finset.range B).filter (fun j => positiveP label i j) :=
          Finset.mem_filter.mpr ⟨hj, hcon⟩
        rw [hp] at hmem
        exact absurd hmem (Finset.not_mem_empty j)
      have hdpos : dposD label z B S C i = -(dlimit C) := by
        unfold dposD
        exact maxOverD_const_on hBne (fun j hj => if_neg (hpe j hj))
      have hdneg : 0 ≤ dnegD label z B S C i := by
        unfold dnegD
        apply le_minOverD le_rfl
        intro j _
        split
        · rw [distMat_eq_distClaim]
          exact distClaim_nonneg z S C i j
        · exact dlimit_nonneg C
      have h2dl : 2 ≤ dlimit C := two_le_dlimit hC
      rw [hdpos]
      linarith
  | inr hn =>
      have hne : ∀ j ∈ Finset.range B, ¬ negativeP label i j := by
        intro j hj hcon
        have hmem : j ∈ (Finset.range B).filter (fun j => negativeP label i j) :=
          Finset.mem_filter.mpr ⟨hj, hcon⟩
        rw [hn] at hmem
        exact absurd hmem (Finset.not_mem_empty j)
      have hdneg : dnegD label z B S C i = dlimit C := by
        unfold dnegD
        exact minOverD_const_on hBne (fun j hj => if_neg (hne j hj))
      have hdpos : dposD label z B S C i ≤ 2 := by
        unfold dposD
        apply maxOverD_le (by norm_num)
        intro j hj
        split
        · rw [distMat_eq_distClaim]
          exact distClaim_le_two hS (hnorm i hi) (hnorm j (Finset.mem_range.mp hj))
        · linarith [dlimit_nonneg C]
      rw [hdneg]
      linarith

/-- Witness for `loss_missing_partner_zero`: a two-item batch with
distinct labels (so item 0 has no positive partner), identical unit
embeddings, and margin `1/5 = dlimit(2) - 2`. -/
theorem loss_missing_partner_zero_witness :
    (((Finset.range 2).filter (fun j => positiveP lblId 0 j)) = ∅ ∨
      ((Finset.range 2).filter (fun j => negativeP lblId 0 j)) = ∅) ∧
    (∀ b < 2, ∀ s < 1, ∑ c ∈ Finset.range 2, zSame b s c ^ 2 = 1) ∧
    ((mkModel (1 / 5)).conf.margin ≤ dlimit 2 - 2) ∧
    relu (dposD lblId zSame 2 1 2 0 - dnegD lblId zSame 2 1 2 0 +
      (mkModel (1 / 5)).conf.margin) = 0 := by
  have hmiss : ((Finset.range 2).filter (fun j => positiveP lblId 0 j)) = ∅ ∨
      ((Finset.range 2).filter (fun j => negativeP lblId 0 j)) = ∅ :=
    Or.inl (by decide)
  have hnorm : ∀ b < 2, ∀ s < 1, ∑ c ∈ Finset.range 2, zSame b s c ^ 2 = 1 := by
    intro b _ s _
    rw [Finset.sum_range_succ, Finset.sum_range_one]
    unfold zSame
    norm_num
  have hm : (mkModel (1 / 5)).conf.margin ≤ dlimit 2 - 2 := by
    have hmargin : (mkModel (1 / 5)).conf.margin = 1 / 5 := rfl
    rw [hmargin, dlimit_two]
    norm_num
  exact ⟨hmiss, hnorm, hm,
    loss_missing_partner_zero (mkModel (1 / 5)) lblId zSame 2 1 2 0 (by norm_num)
      hmiss hnorm (by norm_num) (by norm_num) hm⟩

lemma distClaim_S1 (z : ℕ → ℕ → ℕ → ℝ) (C i j : ℕ) :
    distClaim z 1 C i j = pdist .euc C (z i 0) (z j 0) := by
  unfold distClaim
  rw [Finset.sum_range_one, Finset.sum_range_one]
  norm_num

lemma distClaim_zGap (i j : ℕ) :
    distClaim zGap 1 1 i j =
      |(if i < 2 then (0 : ℝ) else 3) - (if j < 2 then (0 : ℝ) else 3)| := by
  rw [distClaim_S1]
  simp only [pdist]
  rw [Finset.sum_range_one]
  unfold zGap
  rw [Real.sqrt_sq_eq_abs]

lemma distMat_zGap (i j : ℕ) :
    distMat zGap 1 1 i j =
      |(if i < 2 then (0 : ℝ) else 3) - (if j < 2 then (0 : ℝ) else 3)| := by
  rw [distMat_eq_distClaim, distClaim_zGap]

lemma dlimit_one_lt_two : dlimit 1 < 2 := by
  unfold dlimit
  rw [show (2 * ((1 : ℕ) : ℝ)) = 2 by norm_num]
  have hs : Real.sqrt 2 < 20 / 11 := (Real.sqrt_lt' (by norm_num)).mpr (by norm_num)
  linarith

/-- C9, as stated, is false: with two unit 2-D embeddings that
coincide across two distinct labels and `margin = 4 ≤ 2 * dlimit(2) =
4.4`, item 0 has no positive partner yet its hinge term is `1.8 ≠ 0`. -/
theorem loss_sentinel_claim_counterexample :
    ((Finset.range 2).filter (fun j => positiveP lblId 0 j) = ∅) ∧
    (∀ b < 2, ∀ s < 1, ∑ c ∈ Finset.range 2, zSame b s c ^ 2 = 1) ∧
    ((mkModel 4).conf.margin ≤ 2 * dlimit 2) ∧
    relu (dposD lblId zSame 2 1 2 0 - dnegD lblId zSame 2 1 2 0 +
      (mkModel 4).conf.margin) ≠ 0 := by
  have hmargin : (mkModel 4).conf.margin = 4 := rfl
  have hdpos : dposD lblId zSame 2 1 2 0 = -(dlimit 2) := by
    unfold dposD
    rw [maxOverD_range_two,
      if_neg (by decide : ¬ positiveP lblId 0 0),
      if_neg (by decide : ¬ positiveP lblId 0 1)]
    exact max_self _
  have hdist : distMat zSame 1 2 0 1 = 0 := by
    rw [distMat_eq_distClaim, distClaim_S1]
    simp only [pdist]
    rw [Finset.sum_range_succ, Finset.sum_range_one]
    unfold zSame
    norm_num
  have hdneg : dnegD lblId zSame 2 1 2 0 = 0 := by
    unfold dnegD
    rw [minOverD_range_two,
      if_neg (by decide : ¬ negativeP lblId 0 0),
      if_pos (by decide : negativeP lblId 0 1), hdist]
    exact min_eq_right (dlimit_nonneg 2)
  refine ⟨by decide, ?_, ?_, ?_⟩
  · intro b _ s _
    rw [Finset.sum_range_succ, Finset.sum_range_one]
    unfold zSame
    norm_num
  · rw [hmargin, dlimit_two]
    norm_num
  · rw [hdpos, hdneg, hmargin, dlimit_two]
    unfold relu
    rw [max_eq_left (by norm_num)]
    norm_num

/-- C2, as stated, is false for arbitrary (unnormalized) embeddings:
with labels `[0,0,1,1]`, 1-D embeddings `[0,0,3,3]` and margin `2`,
every negative-pair distance (`3`) exceeds the sentinel
`dlimit(1) = 1.1·√2`, so the code's `dneg` is the sentinel while the
claim's `dneg` is `3`, and the two triplet terms differ. -/
theorem loss_triplet_claim_counterexample :
    (∀ i < 4, ((Finset.range 4).filter (fun j => positiveP lblHalf i j)).Nonempty) ∧
    (∀ i < 4, ((Finset.range 4).filter (fun j => negativeP lblHalf i j)).Nonempty) ∧
    lossTrip (mkModel 2) lblHalf zGap 4 1 1 ≠ tripClaim (mkModel 2) lblHalf zGap 4 1 1 := by
  have hmargin : (mkModel 2).conf.margin = 2 := rfl
  have hneg0 : -(dlimit 1) ≤ 0 := neg_nonpos.mpr (dlimit_nonneg 1)
  have hdl3 : dlimit 1 ≤ 3 := by linarith [dlimit_one_lt_two]
  have d01 : distMat zGap 1 1 0 1 = 0 := by rw [distMat_zGap]; norm_num
  have d10 : distMat zGap 1 1 1 0 = 0 := by rw [distMat_zGap]; norm_num
  have d23 : distMat zGap 1 1 2 3 = 0 := by rw [distMat_zGap]; norm_num
  have d32 : distMat zGap 1 1 3 2 = 0 := by rw [distMat_zGap]; norm_num
  have d02 : distMat zGap 1 1 0 2 = 3 := by rw [distMat_zGap]; norm_num
  have d03 : distMat zGap 1 1 0 3 = 3 := by rw [distMat_zGap]; norm_num
  have d12 : distMat zGap 1 1 1 2 = 3 := by rw [distMat_zGap]; norm_num
  have d13 : distMat zGap 1 1 1 3 = 3 := by rw [distMat_zGap]; norm_num
  have d20 : distMat zGap 1 1 2 0 = 3 := by rw [distMat_zGap]; norm_num
  have d21 : distMat zGap 1 1 2 1 = 3 := by rw [distMat_zGap]; norm_num
  have d30 : distMat zGap 1 1 3 0 = 3 := by rw [distMat_zGap]; norm_num
  have d31 : distMat zGap 1 1 3 1 = 3 := by rw [distMat_zGap]; norm_num
  have h0p : dposD lblHalf zGap 4 1 1 0 = 0 := by
    unfold dposD
    rw [maxOverD_range_four,
      if_neg (by decide : ¬ positiveP lblHalf 0 0),
      if_pos (by decide : positiveP lblHalf 0 1),
      if_neg (by decide : ¬ positiveP lblHalf 0 2),
      if_neg (by decide : ¬ positiveP lblHalf 0 3), d01]
    rw [max_self, max_eq_left hneg0, max_eq_right hneg0]
  have h1p : dposD lblHalf zGap 4 1 1 1 = 0 := by
    unfold dposD
    rw [maxOverD_range_four,
      if_pos (by decide : positiveP lblHalf 1 0),
      if_neg (by decide : ¬ positiveP lblHalf 1 1),
      if_neg (by decide : ¬ positiveP lblHalf 1 2),
      if_neg (by decide : ¬ positiveP lblHalf 1 3), d10]
    rw [max_self, max_self, max_eq_left hneg0]
  have h2p : dposD lblHalf zGap 4 1 1 2 = 0 := by
    unfold dposD
    rw [maxOverD_range_four,
      if_neg (by decide : ¬ positiveP lblHalf 2 0),
      if_neg (by decide : ¬ positiveP lblHalf 2 1),
      if_neg (by decide : ¬ positiveP lblHalf 2 2),
      if_pos (by decide : positiveP lblHalf 2 3), d23]
    rw [max_eq_right hneg0, max_eq_right hneg0, max_eq_right hneg0]
  have h3p : dposD lblHalf zGap 4 1 1 3 = 0 := by
    unfold dposD
    rw [maxOverD_range_four,
      if_neg (by decide : ¬ positiveP lblHalf 3 0),
      if_neg (by decide : ¬ positiveP lblHalf 3 1),
      if_pos (by decide : positiveP lblHalf 3 2),
      if_neg (by decide : ¬ positiveP lblHalf 3 3), d32]
    rw [max_eq_left hneg0, max_eq_right hneg0, max_eq_right hneg0]
  have h0n : dnegD lblHalf zGap 4 1 1 0 = dlimit 1 := by
    unfold dnegD
    rw [minOverD_range_four,
      if_neg (by decide : ¬ negativeP lblHalf 0 0),
      if_neg (by decide : ¬ negativeP lblHalf 0 1),
      if_pos (by decide : negativeP lblHalf 0 2),
      if_pos (by decide : negativeP lblHalf 0 3), d02, d03]
    rw [min_self, min_eq_left hdl3, min_self]
  have h1n : dnegD lblHalf zGap 4 1 1 1 = dlimit 1 := by
    unfold dnegD
    rw [minOverD_range_four,
      if_neg (by decide : ¬ negativeP lblHalf 1 0),
      if_neg (by decide : ¬ negativeP lblHalf 1 1),
      if_pos (by decide : negativeP lblHalf 1 2),
      if_pos (by decide : negativeP lblHalf 1 3), d12, d13]
    rw [min_self, min_eq_left hdl3, min_self]
  have h2n : dnegD lblHalf zGap 4 1 1 2 = dlimit 1 := by
    unfold dnegD
    rw [minOverD_range_four,
      if_pos (by decide : negativeP lblHalf 2 0),
      if_pos (by decide : negativeP lblHalf 2 1),
      if_neg (by decide : ¬ negativeP lblHalf 2 2),
      if_neg (by decide : ¬ negativeP lblHalf 2 3), d20, d21]
    rw [min_self, min_eq_right hdl3, min_eq_right hdl3]
  have h3n : dnegD lblHalf zGap 4 1 1 3 = dlimit 1 := by
    unfold dnegD
    rw [minOverD_range_four,
      if_pos (by decide : negativeP lblHalf 3 0),
      if_pos (by decide : negativeP lblHalf 3 1),
      if_neg (by decide : ¬ negativeP lblHalf 3 2),
      if_neg (by decide : ¬ negativeP lblHalf 3 3), d30, d31]
    rw [min_self, min_eq_right hdl3, min_eq_right hdl3]
  have hlt : lossTrip (mkModel 2) lblHalf zGap 4 1 1 = 2 - dlimit 1 := by
    unfold lossTrip
    rw [Finset.sum_range_succ, Finset.sum_range_succ, Finset.sum_range_succ,
      Finset.sum_range_one]
    rw [h0p, h0n, h1p, h1n, h2p, h2n, h3p, h3n, hmargin]
    unfold relu
    rw [show max ((0 : ℝ) - dlimit 1 + 2) 0 = 0 - dlimit 1 + 2 from
      max_eq_left (by linarith [dlimit_one_lt_two])]
    ring
  have c01 : distClaim zGap 1 1 0 1 = 0 := by rw [distClaim_zGap]; norm_num
  have c10 : distClaim zGap 1 1 1 0 = 0 := by rw [distClaim_zGap]; norm_num
  have c23 : distClaim zGap 1 1 2 3 = 0 := by rw [distClaim_zGap]; norm_num
  have c32 : distClaim zGap 1 1 3 2 = 0 := by rw [distClaim_zGap]; norm_num
  have c02 : distClaim zGap 1 1 0 2 = 3 := by rw [distClaim_zGap]; norm_num
  have c03 : distClaim zGap 1 1 0 3 = 3 := by rw [distClaim_zGap]; norm_num
  have c12 : distClaim zGap 1 1 1 2 = 3 := by rw [distClaim_zGap]; norm_num
  have c13 : distClaim zGap 1 1 1 3 = 3 := by rw [distClaim_zGap]; norm_num
  have c20 : distClaim zGap 1 1 2 0 = 3 := by rw [distClaim_zGap]; norm_num
  have c21 : distClaim zGap 1 1 2 1 = 3 := by rw [distClaim_zGap]; norm_num
  have c30 : distClaim zGap 1 1 3 0 = 3 := by rw [distClaim_zGap]; norm_num
  have c31 : distClaim zGap 1 1 3 1 = 3 := by rw [distClaim_zGap]; norm_num
  have htc : tripClaim (mkModel 2) lblHalf zGap 4 1 1 = 0 := by
    unfold tripClaim
    rw [Finset.sum_range_succ, Finset.sum_range_succ, Finset.sum_range_succ,
      Finset.sum_range_one]
    rw [show ((Finset.range 4).filter (fun j => positiveP lblHalf 0 j)) = ({1} : Finset ℕ)
        from by decide,
      show ((Finset.range 4).filter (fun j => negativeP lblHalf 0 j)) = ({2, 3} : Finset ℕ)
        from by decide,
      show ((Finset.range 4).filter (fun j => positiveP lblHalf 1 j)) = ({0} : Finset ℕ)
        from by decide,
      show ((Finset.range 4).filter (fun j => negativeP lblHalf 1 j)) = ({2, 3} : Finset ℕ)
        from by decide,
      show ((Finset.range 4).filter (fun j => positiveP lblHalf 2 j)) = ({3} : Finset ℕ)
        from by decide,
      show ((Finset.range 4).filter (fun j => negativeP lblHalf 2 j)) = ({0, 1} : Finset ℕ)
        from by decide,
      show ((Finset.range 4).filter (fun j => positiveP lblHalf 3 j)) = ({2} : Finset ℕ)
        from by decide,
      show ((Finset.range 4).filter (fun j => negativeP lblHalf 3 j)) = ({0, 1} : Finset ℕ)
        from by decide]
    rw [maxOverD_singletonF, maxOverD_singletonF, maxOverD_singletonF, maxOverD_singletonF,
      minOverD_pairF, minOverD_pairF, minOverD_pairF, minOverD_pairF]
    rw [c01, c02, c03, c10, c12, c13, c23, c20, c21, c32, c30, c31, hmargin]
    unfold relu
    rw [min_self]
    rw [show max ((0 : ℝ) - 3 + 2) 0 = 0 from max_eq_right (by norm_num)]
    norm_num
  refine ⟨by decide, by decide, ?_⟩
  rw [hlt, htc]
  intro h
  have h2 : dlimit 1 < 2 := dlimit_one_lt_two
  linarith

end Clews
